import Mathlib

/-
  Verification of the CBOR-LD decode engine (src/lib/decode.js) against its
  natural-language specification.

  The embedding mirrors the JavaScript source:
  * `fromCborld`           — src/lib/decode.js, `fromCborld` (lines 37-67)
  * `generateDecodingMap`  — src/lib/decode.js, `_generateDecodingMap` (lines 71-124),
    split into the seeding block, the entries loop, the per-value dispatch and the
    array-element loop (mutual recursion over the nested CBOR tree)
  * `decodeMap`            — src/lib/decode.js, `_decodeMap` (lines 127-160); the
    source recursion is unbounded (it recurses on the *outer* map), so the model
    takes a fuel argument bounding call depth; `none` models non-termination
    (unbounded recursion / stack overflow) of the source.

  Code of this repository that is not under src/ (src/lib/context.js,
  src/lib/codec.js, src/lib/codecs/*, src/lib/encode.js) is modelled from the
  spec; each such definition carries a doc comment starting with
  `Modelled from the spec:`.
-/

/-- Keys of a decoded CBOR map as produced by the external binary decoder:
either an integer (compressed term IDs) or a string. -/
inductive CKey where
  | kint (n : Int)
  | kstr (s : String)
deriving DecidableEq, Repr

/-- A JS object key is always a string; `jsonldDocument[key]` coerces the key. -/
def CKey.render : CKey → String
  | .kint n => toString n
  | .kstr s => s

/-- Dynamic values produced by the external binary decoder (`cbor.decode`) and
appearing in JSON-LD documents.  `cmap` is a JS `Map` instance (the decoder's
representation of a CBOR map with non-string keys), `cobj` a plain JS object,
`cnull` the JS `null`. -/
inductive CborValue where
  | cmap : List (CKey × CborValue) → CborValue
  | cobj : List (String × CborValue) → CborValue
  | carr : List CborValue → CborValue
  | cint : Int → CborValue
  | cstr : String → CborValue
  | cbool : Bool → CborValue
  | cbytes : List Nat → CborValue
  | cnull : CborValue

/-- The CBOR-LD codec variants (src/lib/codecs/*, imported by decode.js). -/
inductive CodecKind where
  | base64Pad
  | codecMap
  | compressedCborld
  | context
  | simpleType
  | uncompressedCborld
  | url
  | xsdDateTime
deriving DecidableEq, Repr

/-- An entry of the Term Codec Map: the resolved term string and the codec
class registered for it (`termCodecMap.get(key).value / .codec`). -/
structure TermEntry where
  value : String
  codec : CodecKind
deriving DecidableEq, Repr

/-- The Term Codec Map, keyed by the binary key as it appears in the CBOR map
(integer term IDs; the reserved `@codec` pseudo-term is also reachable under
its string key, which line 79 of decode.js looks up). -/
abbrev TermCodecMap := List (CKey × TermEntry)

/-- Application context map: integer codes (> 32767) to context URLs. -/
abbrev AppContextMap := List (Nat × String)

/-- Application term map: JSON-LD terms to their bespoke CBOR-LD codecs. -/
abbrev AppTermMap := List (String × CodecKind)

/-- Values a codec instance can be loaded with: either a raw decoded CBOR
value, or (for the synthesized `@codec` entry) the application term map. -/
inductive DynVal where
  | ofCbor (v : CborValue)
  | ofApp (m : AppTermMap)

/-- A codec instance: `new Codec()` followed by
`codec.set({value, appContextMap, termCodecMap})`.  `appContextMap` /
`termCodecMap` are `none` when the corresponding argument was undefined. -/
structure CodecInstance where
  kind : CodecKind
  value : DynVal
  appContextMap : Option AppContextMap
  termCodecMap : Option TermCodecMap

/-- Values of the Decoding Map: nested decoding maps, arrays, codec instances,
or raw values passed through unchanged (`let decodedValue = value`). -/
inductive DValue where
  | dmap : List (CKey × DValue) → DValue
  | darr : List DValue → DValue
  | dcodec : CodecInstance → DValue
  | draw : CborValue → DValue

/-- First-match association-list lookup (JS `Map.prototype.get`). -/
def lookup {α β : Type} [DecidableEq α] : List (α × β) → α → Option β
  | [], _ => none
  | (a, b) :: rest, a' => if a = a' then some b else lookup rest a'

example : lookup [(CKey.kint 1, 2)] (CKey.kint 1) = some 2 := rfl

/-- The Decoding Map: an insertion-ordered map from resolved terms (or raw
keys when no Term Codec Map is active) to decoding values. -/
abbrev DecodingMap := List (CKey × DValue)

/-- Errors aborting a decode call.  The first four carry the stable kind
identifiers of `CborldError` in the source (spec section 7); `typeError`
models a raw JavaScript `TypeError` escaping from the engine. -/
inductive CborldError where
  | notCborld (msg : String)
  | unknownTerm (key : CKey)
  | unknownEncoding (key : CKey) (value : DValue)
  | unresolvedContext (msg : String)
  | typeError (msg : String)

/-- JS `Map.prototype.set`: overwrite in place if the key exists (keeping its
position), otherwise append at the end. -/
def mapSet {α β : Type} [DecidableEq α] : List (α × β) → α → β → List (α × β)
  | [], a, b => [(a, b)]
  | (a', b') :: rest, a, b =>
    if a' = a then (a', b) :: rest else (a', b') :: mapSet rest a b

/-- JS object property assignment `doc[key] = v`: overwrite in place if the
key exists, otherwise append. -/
def objSet : List (String × CborValue) → String → CborValue → List (String × CborValue)
  | [], a, b => [(a, b)]
  | (a', b') :: rest, a, b =>
    if a' = a then (a', b) :: rest else (a', b') :: objSet rest a b

/-- The name under which a codec kind appears when the CodecMap codec
reconstructs the application term map (spec 4.1). -/
def codecKindName : CodecKind → String
  | .base64Pad => "base64Pad"
  | .codecMap => "codecMap"
  | .compressedCborld => "compressedCborld"
  | .context => "context"
  | .simpleType => "simpleType"
  | .uncompressedCborld => "uncompressedCborld"
  | .url => "url"
  | .xsdDateTime => "xsdDateTime"

/-- Modelled from the spec: `decodeCBOR()` of the codec variants
(src/lib/codecs/*, not under src/).  Spec 4.1: `materialize()` produces the
plain JSON-LD value the codec represents; SimpleType is a pass-through
scalar; CodecMap reconstructs the original application term-map structure;
the whole-document wrappers are the identity; the bit-level scalar codecs
(date-time, URL, base64) are out of scope (spec 1), so their loaded raw value
is returned as the materialized value. -/
def decodeCBOR (ci : CodecInstance) : CborValue :=
  match ci.value with
  | .ofApp m => .cobj (m.map (fun p => (p.1, .cstr (codecKindName p.2))))
  | .ofCbor v => v

/-- The entries loop of `_decodeMap` (decode.js lines 130-157).
`recurResult` is the outcome of `_decodeMap(decodingMap)` applied to the
*outer* decoding map, which is what the source calls on lines 134 and 141
(the aliasing defect flagged in spec section 9).  Branches, in source order:
* `value instanceof Map` (a nested decoding map, or a raw `Map` passed
  through): `decodedValue = _decodeMap(decodingMap)` — the outer map;
* `Array.isArray(value)`: `decodedValue = []`; the `forEach` body tests
  `value` (the array itself), not `element`, so both inner branches are
  unreachable and its per-element `jsonldDocument[key] = element` stores are
  overwritten by the final `jsonldDocument[key] = decodedValue`, which is the
  never-pushed empty array — the net effect is binding the key to `[]`;
* `value.decodeCBOR` present (codec instances): materialize;
* accessing `.decodeCBOR` on JS `null` throws a TypeError;
* otherwise: throw ERR_UNKNOWN_CBORLD_ENCODING carrying the key and the
  offending value (the source renders it with `util.inspect`; the model
  carries the value itself). -/
def decodeMapEntries (recurResult : Option (Except CborldError (List (String × CborValue)))) :
    List (CKey × DValue) → List (String × CborValue) →
    Option (Except CborldError (List (String × CborValue)))
  | [], doc => some (.ok doc)
  | (key, value) :: rest, doc =>
    match value with
    | .dmap _ =>
      match recurResult with
      | none => none
      | some (.error e) => some (.error e)
      | some (.ok inner) => decodeMapEntries recurResult rest (objSet doc key.render (.cobj inner))
    | .draw (.cmap _) =>
      match recurResult with
      | none => none
      | some (.error e) => some (.error e)
      | some (.ok inner) => decodeMapEntries recurResult rest (objSet doc key.render (.cobj inner))
    | .darr _ => decodeMapEntries recurResult rest (objSet doc key.render (.carr []))
    | .draw (.carr _) => decodeMapEntries recurResult rest (objSet doc key.render (.carr []))
    | .dcodec ci => decodeMapEntries recurResult rest (objSet doc key.render (decodeCBOR ci))
    | .draw .cnull => some (.error (.typeError "Cannot read properties of null (reading decodeCBOR)"))
    | .draw rv => some (.error (.unknownEncoding key (.draw rv)))

/-- `_decodeMap` (decode.js lines 127-160).  `fuel` bounds the recursion
depth; `none` models the unbounded recursion of the source (which always
recurses on the same outer map). -/
def decodeMap : Nat → DecodingMap → Option (Except CborldError (List (String × CborValue)))
  | 0, _ => none
  | fuel + 1, dm => decodeMapEntries (decodeMap fuel dm) dm []

/-- The `@codec` seeding block of `_generateDecodingMap` (decode.js lines
75-80): when `appTermMap` is truthy and non-empty and `termCodecMap` is
truthy, wrap the application term map in a `CodecMapCodec` (whose `set`
receives only `value` and `termCodecMap`) and install it under
`termCodecMap.get('@codec').value`; when the Term Codec Map has no `@codec`
entry, reading `.value` of `undefined` throws a TypeError. -/
def seedResult (appTermMap : Option AppTermMap) (termCodecMap : Option TermCodecMap) :
    Except CborldError DecodingMap :=
  match appTermMap, termCodecMap with
  | some m, some tcm =>
    if m = [] then .ok []
    else
      match lookup tcm (.kstr "@codec") with
      | none => .error (.typeError "Cannot read properties of undefined (reading value)")
      | some e =>
        .ok [(.kstr e.value, .dcodec ⟨.codecMap, .ofApp m, none, some tcm⟩)]
  | _, _ => .ok []

mutual

/-- `_generateDecodingMap` (decode.js lines 71-124): run the `@codec` seeding
block, then iterate `cborMap.entries()`.  Calling `.entries()` on anything
that is not a JS `Map` (in particular on a plain object reached through the
recursive call of line 105) throws a TypeError. -/
def generateDecodingMap (appTermMap : Option AppTermMap) (appContextMap : Option AppContextMap)
    (termCodecMap : Option TermCodecMap) (cborMap : CborValue) :
    Except CborldError DecodingMap :=
  match seedResult appTermMap termCodecMap with
  | .error e => .error e
  | .ok seed =>
    match cborMap with
    | .cmap l => generateDecodingMapEntries appContextMap termCodecMap l seed
    | _ => .error (.typeError "cborMap.entries is not a function")
termination_by sizeOf cborMap

/-- The entries loop of `_generateDecodingMap` (decode.js lines 82-121): for
each `(key, value)` pair, fail with ERR_UNKNOWN_CBORLD_TERM if the Term Codec
Map is active but has no entry for the key (lines 83-88), resolve the term
(lines 90-92), process the value (lines 94-118) and `decodingMap.set(term,
decodedValue)` (line 120). -/
def generateDecodingMapEntries (appContextMap : Option AppContextMap)
    (termCodecMap : Option TermCodecMap) (entries : List (CKey × CborValue))
    (acc : DecodingMap) : Except CborldError DecodingMap :=
  match entries with
  | [] => .ok acc
  | (key, value) :: rest =>
    match termCodecMap with
    | some tcm =>
      match lookup tcm key with
      | none => .error (.unknownTerm key)
      | some entry =>
        match generateDecodingMapValue appContextMap termCodecMap (some entry) value with
        | .error e => .error e
        | .ok dv =>
          generateDecodingMapEntries appContextMap termCodecMap rest
            (mapSet acc (.kstr entry.value) dv)
    | none =>
      match generateDecodingMapValue appContextMap termCodecMap none value with
      | .error e => .error e
      | .ok dv => generateDecodingMapEntries appContextMap termCodecMap rest (mapSet acc key dv)
termination_by sizeOf entries

/-- The per-value dispatch of the entries loop (decode.js lines 94-118):
* `value instanceof Map` (line 96): recurse via `_generateDecodingMap` with
  the `appTermMap` argument omitted — its seeding block is skipped and the
  nested call is exactly the entries loop from an empty map;
* `Array.isArray(value)` (line 99): the element loop;
* otherwise (line 114): with an active Term Codec Map, load the value into a
  fresh instance of the codec registered for the key; without one, pass the
  raw value through. -/
def generateDecodingMapValue (appContextMap : Option AppContextMap)
    (termCodecMap : Option TermCodecMap) (entry? : Option TermEntry) (value : CborValue) :
    Except CborldError DValue :=
  match value with
  | .cmap l =>
    match generateDecodingMapEntries appContextMap termCodecMap l [] with
    | .error e => .error e
    | .ok dm => .ok (.dmap dm)
  | .carr es =>
    match generateDecodingMapElems appContextMap termCodecMap entry? es with
    | .error e => .error e
    | .ok ds => .ok (.darr ds)
  | v =>
    match entry? with
    | some entry => .ok (.dcodec ⟨entry.codec, .ofCbor v, appContextMap, termCodecMap⟩)
    | none => .ok (.draw v)
termination_by sizeOf value

/-- The array-element loop (decode.js lines 100-113): for each element,
* `typeof element === 'object' && element.constructor === Object` (line 104)
  holds only for plain JS objects, not for `Map` instances or arrays; for a
  plain object the recursive `_generateDecodingMap` call then throws a
  TypeError at `cborMap.entries()` (the decoder produces `Map`s, not plain
  objects, for nested CBOR maps);
* evaluating `element.constructor` on JS `null` throws a TypeError;
* otherwise, with an active Term Codec Map, load the element into a fresh
  instance of the codec registered for the enclosing *key* (lines 107-110) —
  an element that is itself an array is loaded the same way, with no
  unsupported-shape error; without one, pass the element through raw. -/
def generateDecodingMapElems (appContextMap : Option AppContextMap)
    (termCodecMap : Option TermCodecMap) (entry? : Option TermEntry) (es : List CborValue) :
    Except CborldError (List DValue) :=
  match es with
  | [] => .ok []
  | e :: rest =>
    let sub : Except CborldError DValue :=
      match e with
      | .cobj l =>
        match generateDecodingMap none appContextMap termCodecMap (.cobj l) with
        | .error err => .error err
        | .ok dm => .ok (.dmap dm)
      | .cnull => .error (.typeError "Cannot read properties of null (reading constructor)")
      | el =>
        match entry? with
        | some entry => .ok (.dcodec ⟨entry.codec, .ofCbor el, appContextMap, termCodecMap⟩)
        | none => .ok (.draw el)
    match sub with
    | .error err => .error err
    | .ok d =>
      match generateDecodingMapElems appContextMap termCodecMap entry? rest with
      | .error err => .error err
      | .ok ds => .ok (d :: ds)
termination_by sizeOf es

end

/-- The resolved term definitions of one context: term strings with the codec
variant each expects (the document loader's output, spec section 6). -/
abbrev ContextDoc := List (String × CodecKind)

/-- Modelled from the spec: the well-known table of context URLs indexed by
low integer codes (spec section 3).  The spec references the table without
enumerating it; it is left empty here, so every low code fails as
Unresolved-context (spec section 7). -/
def wellKnownContextTable : List (Nat × String) := []

/-- Modelled from the spec: the reserved low term ID of the `@context`
keyword (spec sections 3 and 6: lowest IDs are reserved for the JSON-LD
keywords and the `@codec` pseudo-term; this model reserves 1-4 for
`@codec`, `@context`, `@id`, `@type` in that order). -/
def contextTermId : Int := 2

/-- Modelled from the spec: mapping one embedded context code to its URL
(spec section 3): codes above 32767 index the application context map,
low codes index the well-known table; an unmapped code is an
unresolved-context error (spec section 7). -/
def resolveContextCode (appContextMap : Option AppContextMap) (code : Int) :
    Except CborldError String :=
  if code > 32767 then
    match appContextMap with
    | some acm =>
      match lookup acm code.toNat with
      | some url => .ok url
      | none => .error (.unresolvedContext "application context code has no mapped URL")
    | none => .error (.unresolvedContext "application context code has no mapped URL")
  else
    match lookup wellKnownContextTable code.toNat with
    | some url => .ok url
    | none => .error (.unresolvedContext "context code is not in the well-known table")

/-- Left fold deduplication preserving first-occurrence order. -/
def dedup : List String → List String → List String
  | [], _ => []
  | u :: rest, seen => if u ∈ seen then dedup rest seen else u :: dedup rest (u :: seen)

/-- Modelled from the spec: `getCborldContextUrls` (src/lib/context.js, not
under src/).  Spec sections 3 and 4.2: collect the context codes embedded
under the `@context` term of the binary map, map each through the well-known
table or the application context map, and deduplicate preserving order. -/
def getCborldContextUrls (cborMap : CborValue) (appContextMap : Option AppContextMap) :
    Except CborldError (List String) :=
  match cborMap with
  | .cmap l =>
    match lookup l (.kint contextTermId) with
    | some (.cint code) =>
      match resolveContextCode appContextMap code with
      | .error e => .error e
      | .ok url => .ok [url]
    | some (.carr codes) =>
      let step : CborValue → Except CborldError (List String) → Except CborldError (List String) :=
        fun c acc =>
          (match c, acc with
          | .cint code, .ok urls =>
            (match resolveContextCode appContextMap code with
            | .error e => .error e
            | .ok url => .ok (url :: urls))
          | _, .ok _ => .error (.unresolvedContext "embedded context reference is not a code")
          | _, .error e => .error e)
      match codes.foldr step (.ok []) with
      | .error e => .error e
      | .ok urls => .ok (dedup urls [])
    | some _ => .error (.unresolvedContext "embedded context reference is not a code")
    | none => .ok []
  | _ => .ok []

/-- Modelled from the spec: sequential resolution of the context URLs through
the document loader (spec section 4.2), preserving order; the second
component logs every URL the loader was invoked on; loader failures
propagate. -/
def resolveContexts (documentLoader : String → Except CborldError ContextDoc) :
    List String → Except CborldError (List ContextDoc) × List String
  | [] => (.ok [], [])
  | u :: rest =>
    match documentLoader u with
    | .error e => (.error e, [u])
    | .ok doc =>
      match resolveContexts documentLoader rest with
      | (r, log) =>
        match r with
        | .error e => (.error e, u :: log)
        | .ok docs => (.ok (doc :: docs), u :: log)

/-- Assign sequential integer IDs to a term list, starting at `n`. -/
def assignIds : Nat → List (String × CodecKind) → TermCodecMap
  | _, [] => []
  | n, (t, c) :: rest => (.kint n, ⟨t, c⟩) :: assignIds (n + 1) rest

/-- Apply the application term map's codec overrides (they win on collision,
spec section 4.2). -/
def applyOverrides (appTermMap : Option AppTermMap) (terms : List (String × CodecKind)) :
    List (String × CodecKind) :=
  match appTermMap with
  | none => terms
  | some atm => terms.map (fun p =>
      match lookup atm p.1 with
      | some c => (p.1, c)
      | none => p)

/-- Modelled from the spec: `getTermCodecMap` in decode mode (src/lib/codec.js,
not under src/).  Spec sections 3 and 4.2: resolve every context URL through
the document loader in order, compile the reserved keyword block
(`@codec`, `@context`, `@id`, `@type` at IDs 1-4) followed by every resolved
context's term definitions at sequential IDs, and merge application term
overrides last; the `@codec` pseudo-term is additionally reachable under its
string key (decode.js line 79 relies on that).  The second component logs the
loader invocations. -/
def getTermCodecMap (urls : List String) (appTermMap : Option AppTermMap)
    (documentLoader : String → Except CborldError ContextDoc) :
    Except CborldError TermCodecMap × List String :=
  match resolveContexts documentLoader urls with
  | (.error e, log) => (.error e, log)
  | (.ok docs, log) =>
    let keywords : List (String × CodecKind) :=
      [("@codec", .codecMap), ("@context", .context), ("@id", .url), ("@type", .url)]
    let terms := applyOverrides appTermMap (keywords ++ docs.flatten)
    ((.ok ((.kstr "@codec", ⟨"@codec", .codecMap⟩) :: assignIds 1 terms)), log)

/-- The tagged value produced by the external binary decoder
(`cbor.decode(cborldBytes)`). -/
structure Tagged where
  tag : Nat
  value : CborValue

/-- Modelled from the spec: the encoder's pass-through envelope
(src/lib/encode.js, not under src/): an uncompressed document is wrapped
unchanged under the UNCOMPRESSED tag 0x0500 (spec sections 4.5 and 8). -/
def encodePassthrough (d : CborValue) : Tagged := ⟨0x0500, d⟩

/-- `fromCborld` (decode.js lines 37-67), starting from the decoded tagged
value (the byte-level `cbor.decode` is the trusted external primitive):
* tag 0x0500 (UNCOMPRESSED): return the wrapped value unchanged;
* tag 0x0501 (COMPRESSED): resolve context URLs, build the Term Codec Map
  (the only step that invokes the document loader), generate the Decoding Map
  and realize it;
* any other tag: throw ERR_NOT_CBORLD naming both legal tag values.
The result pairs the outcome with the log of documentLoader invocations;
`fuel` bounds the realizer's recursion depth (`none` models its unbounded
recursion); the optional `diagnose` callback is purely observational
(spec section 6) and is not modelled. -/
def fromCborld (appContextMap : Option AppContextMap) (appTermMap : Option AppTermMap)
    (documentLoader : String → Except CborldError ContextDoc) (fuel : Nat) (input : Tagged) :
    Option (Except CborldError CborValue) × List String :=
  if input.tag = 0x0500 then
    (some (.ok input.value), [])
  else if input.tag = 0x0501 then
    match getCborldContextUrls input.value appContextMap with
    | .error e => (some (.error e), [])
    | .ok urls =>
      match getTermCodecMap urls appTermMap documentLoader with
      | (.error e, log) => (some (.error e), log)
      | (.ok tcm, log) =>
        match generateDecodingMap appTermMap appContextMap (some tcm) input.value with
        | .error e => (some (.error e), log)
        | .ok dm =>
          match decodeMap fuel dm with
          | none => (none, log)
          | some (.error e) => (some (.error e), log)
          | some (.ok obj) => (some (.ok (.cobj obj)), log)
  else
    (some (.error (.notCborld
      "Input is not valid CBOR-LD; missing CBOR-LD header (0x0500 or 0x501).")), [])

/-- Claim C1: the claim says the Tree Realizer recurses on the specific
nested value; the code (decode.js line 134) instead calls `_decodeMap` on the
outer decoding map, so realizing any decoding map whose first entry holds a
nested map never terminates — for every recursion-depth bound the model
reports divergence, and no result containing the nested map's realization is
ever produced. -/
theorem decodeMap_nested_map_diverges (fuel : Nat) (k : CKey) (m : List (CKey × DValue))
    (rest : DecodingMap) : decodeMap fuel ((k, .dmap m) :: rest) = none := by
  induction fuel with
  | zero => rfl
  | succ n ih => simp [decodeMap, decodeMapEntries, ih]

/-- Claim C2: the claim says an array value is realized element by element
into an output sequence of the same length and order; the code's array branch
(decode.js lines 135-146) tests `value` instead of `element` and never pushes
into `decodedValue`, so a two-element array of codec-bearing values is
realized as the empty array. -/
theorem decodeMap_array_entry_empty :
    decodeMap 1 [(.kstr "a", .darr
      [.dcodec ⟨.simpleType, .ofCbor (.cstr "x"), none, none⟩,
       .dcodec ⟨.simpleType, .ofCbor (.cstr "y"), none, none⟩])] =
      some (.ok [("a", .carr [])]) := rfl

/-- A Term Codec Map registering the SimpleType codec for term ID 1. -/
def tcmA : TermCodecMap := [(.kint 1, ⟨"a", .simpleType⟩)]

/-- Claim C3: the claim says an array element that is itself an array must
raise a clear Unsupported-shape error; the code (decode.js lines 99-113)
instead lets the inner array fall through `element.constructor === Object`
into the codec branch and silently loads it into the key's codec — the
builder returns `ok`, raising no error at all. -/
theorem generateDecodingMap_array_of_arrays_no_error :
    generateDecodingMap none none (some tcmA) (.cmap [(.kint 1, .carr [.carr [.cint 7]])]) =
      .ok [(.kstr "a", .darr [.dcodec ⟨.simpleType, .ofCbor (.carr [.cint 7]), none, some tcmA⟩])] := by
  simp [generateDecodingMap, generateDecodingMapEntries, generateDecodingMapValue,
    generateDecodingMapElems, seedResult, lookup, mapSet, tcmA]

/-- Claim C5: for every input whose decoded top-level tag is UNCOMPRESSED
(0x0500), `fromCborld` returns the wrapped value unchanged, so decoding a
pass-through-encoded document yields exactly that document (decode.js lines
42-43). -/
theorem fromCborld_passthrough_identity (acm : Option AppContextMap) (atm : Option AppTermMap)
    (dl : String → Except CborldError ContextDoc) (fuel : Nat) (d : CborValue) :
    fromCborld acm atm dl fuel (encodePassthrough d) = (some (.ok d), []) := rfl

/-- Claim C6: for every input whose decoded top-level tag is neither 0x0500
nor 0x0501, `fromCborld` fails with ERR_NOT_CBORLD naming both legal tag
values, with no further processing: the result is this fixed error for every
application map, document loader and fuel, and the loader-invocation log is
empty (decode.js lines 54-57). -/
theorem fromCborld_bad_tag_not_cborld (acm : Option AppContextMap) (atm : Option AppTermMap)
    (dl : String → Except CborldError ContextDoc) (fuel : Nat) (tag : Nat) (v : CborValue)
    (h1 : tag ≠ 0x0500) (h2 : tag ≠ 0x0501) :
    fromCborld acm atm dl fuel ⟨tag, v⟩ =
      (some (.error (.notCborld
        "Input is not valid CBOR-LD; missing CBOR-LD header (0x0500 or 0x501).")), []) := by
  simp [fromCborld, h1, h2]

/-- Claim C6 witness: tag 0x0502 is rejected as Not-CBOR-LD. -/
theorem fromCborld_bad_tag_not_cborld_witness :
    fromCborld none none (fun _ => .error (.unresolvedContext "no loader")) 0 ⟨0x0502, .cnull⟩ =
      (some (.error (.notCborld
        "Input is not valid CBOR-LD; missing CBOR-LD header (0x0500 or 0x501).")), []) :=
  fromCborld_bad_tag_not_cborld none none (fun _ => .error (.unresolvedContext "no loader")) 0
    0x0502 .cnull (by decide) (by decide)

/-- Claim C7: a Tree Realizer entry whose value is neither a nested decoding
map, nor an array, nor codec-bearing fails with ERR_UNKNOWN_CBORLD_ENCODING
carrying the offending key and the value itself (decode.js lines 147-154);
`rv ≠ cnull` excludes the raw JS `null`, on which the source's
`value.decodeCBOR` access throws a TypeError instead. -/
theorem decodeMap_unknown_encoding (fuel : Nat) (k : CKey) (rv : CborValue) (rest : DecodingMap)
    (hm : ∀ l, rv ≠ .cmap l) (ha : ∀ es, rv ≠ .carr es) (hn : rv ≠ .cnull) :
    decodeMap (fuel + 1) ((k, .draw rv) :: rest) =
      some (.error (.unknownEncoding k (.draw rv))) := by
  cases rv <;>
    first
    | exact absurd rfl (hm _)
    | exact absurd rfl (ha _)
    | exact absurd rfl hn
    | rfl

/-- Claim C7 witness: a raw string leaf raises Unknown-encoding with the key
and the value. -/
theorem decodeMap_unknown_encoding_witness :
    decodeMap 1 [(.kint 1, .draw (.cstr "x"))] =
      some (.error (.unknownEncoding (.kint 1) (.draw (.cstr "x")))) :=
  decodeMap_unknown_encoding 0 (.kint 1) (.cstr "x") []
    (fun _ h => nomatch h) (fun _ h => nomatch h) (fun h => nomatch h)

/-- Claim C10: on an UNCOMPRESSED-tagged input the document loader is never
invoked (the invocation log is empty) and the result is identical across any
two runs that differ only in the application context and term maps
(decode.js lines 42-48). -/
theorem fromCborld_uncompressed_independent (acm acm' : Option AppContextMap)
    (atm atm' : Option AppTermMap) (dl : String → Except CborldError ContextDoc)
    (fuel : Nat) (v : CborValue) :
    (fromCborld acm atm dl fuel ⟨0x0500, v⟩).2 = [] ∧
      fromCborld acm atm dl fuel ⟨0x0500, v⟩ = fromCborld acm' atm' dl fuel ⟨0x0500, v⟩ :=
  ⟨rfl, rfl⟩

theorem mapSet_cons_ne {α β : Type} [DecidableEq α] (a' : α) (b' : β) (l : List (α × β))
    (a : α) (b : β) (h : a' ≠ a) :
    mapSet ((a', b') :: l) a b = (a', b') :: mapSet l a b := by
  simp [mapSet, h]

theorem mapSet_mem {α β : Type} [DecidableEq α] (l : List (α × β)) (a : α) (b : β)
    (p : α × β) (hp : p ∈ mapSet l a b) : p = (a, b) ∨ p ∈ l := by
  induction l with
  | nil => simpa [mapSet] using hp
  | cons q rest ih =>
    obtain ⟨a', b'⟩ := q
    by_cases h : a' = a
    · subst h
      simp [mapSet] at hp
      rcases hp with hp | hp
      · exact Or.inl (by simp [hp])
      · exact Or.inr (List.mem_cons_of_mem _ hp)
    · rw [mapSet_cons_ne a' b' rest a b h] at hp
      rcases List.mem_cons.mp hp with hp | hp
      · exact Or.inr (by simp [hp])
      · rcases ih hp with hp | hp
        · exact Or.inl hp
        · exact Or.inr (List.mem_cons_of_mem _ hp)

/-- Prepending an entry whose key no loop iteration resolves to commutes with
the entries loop: the accumulator's head survives unchanged at the front. -/
theorem generateDecodingMapEntries_cons_acc (acm : Option AppContextMap) (tcm : TermCodecMap)
    (l : List (CKey × CborValue)) (h : CKey × DValue) :
    ∀ acc : DecodingMap,
    (∀ p ∈ l, ∀ e : TermEntry, lookup tcm p.1 = some e → CKey.kstr e.value ≠ h.1) →
    generateDecodingMapEntries acm (some tcm) l (h :: acc) =
      (generateDecodingMapEntries acm (some tcm) l acc).map (fun r => h :: r) := by
  obtain ⟨h1, h2⟩ := h
  induction l with
  | nil =>
    intro acc hcol
    simp [generateDecodingMapEntries, Except.map]
  | cons p rest ih =>
    intro acc hcol
    obtain ⟨key, value⟩ := p
    rw [generateDecodingMapEntries, generateDecodingMapEntries]
    cases hl : lookup tcm key with
    | none => simp [Except.map]
    | some entry =>
      simp only
      cases hv : generateDecodingMapValue acm (some tcm) (some entry) value with
      | error e => simp [Except.map]
      | ok dv =>
        simp only
        have hne : h1 ≠ CKey.kstr entry.value :=
          fun heq => hcol (key, value) (List.mem_cons_self _ _) entry hl (heq.symm)
        rw [mapSet_cons_ne h1 h2 acc (CKey.kstr entry.value) dv hne]
        exact ih _ (fun q hq => hcol q (List.mem_cons_of_mem _ hq))

/-- Claim C8: when the application term map is supplied and non-empty and a
Term Codec Map is active (with its reserved `@codec` entry, whose absence
would make line 79 throw), the Decoding Tree Builder's output is exactly the
output it would produce without the application term map plus one extra entry
prepended under the resolved `@codec` term, wrapping the application term map
as a CodecMap codec instance (decode.js lines 76-80); the collision
hypothesis says no binary key of the map resolves to that same term. -/
theorem generateDecodingMap_synthesized_codec_entry (atm : AppTermMap)
    (acm : Option AppContextMap) (tcm : TermCodecMap) (l : List (CKey × CborValue))
    (e : TermEntry) (hne : atm ≠ []) (he : lookup tcm (.kstr "@codec") = some e)
    (hcol : ∀ p ∈ l, ∀ e' : TermEntry, lookup tcm p.1 = some e' → e'.value ≠ e.value) :
    generateDecodingMap (some atm) acm (some tcm) (.cmap l) =
      (generateDecodingMap none acm (some tcm) (.cmap l)).map
        (fun dm => (.kstr e.value, .dcodec ⟨.codecMap, .ofApp atm, none, some tcm⟩) :: dm) := by
  rw [generateDecodingMap, generateDecodingMap]
  simp only [seedResult, hne, if_neg, he]
  have hcol' : ∀ p ∈ l, ∀ e' : TermEntry, lookup tcm p.1 = some e' →
      CKey.kstr e'.value ≠ (CKey.kstr e.value, DValue.dcodec
        ⟨.codecMap, .ofApp atm, none, some tcm⟩).1 := by
    intro p hp e' hl heq
    exact hcol p hp e' hl (by injection heq)
  exact generateDecodingMapEntries_cons_acc acm tcm l _ [] hcol'

/-- A Term Codec Map with a term entry and the reserved `@codec` entry. -/
def tcmB : TermCodecMap :=
  [(.kint 1, ⟨"name", .simpleType⟩), (.kstr "@codec", ⟨"@codec", .codecMap⟩)]

/-- An application term map registering a bespoke codec for one term. -/
def atmB : AppTermMap := [("amount", .url)]

/-- Claim C8 witness: with a non-empty application term map, the builder's
output on a one-entry binary map is the no-app-term-map output with the
synthesized `@codec` entry prepended. -/
theorem generateDecodingMap_synthesized_codec_entry_witness :
    atmB ≠ [] ∧
    generateDecodingMap (some atmB) none (some tcmB) (.cmap [(.kint 1, .cstr "Alice")]) =
      (generateDecodingMap none none (some tcmB) (.cmap [(.kint 1, .cstr "Alice")])).map
        (fun dm => (.kstr "@codec", .dcodec ⟨.codecMap, .ofApp atmB, none, some tcmB⟩) :: dm) :=
  ⟨by decide,
    generateDecodingMap_synthesized_codec_entry atmB none tcmB [(.kint 1, .cstr "Alice")]
      ⟨"@codec", .codecMap⟩ (by decide) (by decide)
      (by
        intro p hp e' hl
        rw [List.mem_singleton] at hp
        subst hp
        simp [tcmB, lookup] at hl
        subst hl
        decide)⟩

/-- Well-formed binary trees as the CBOR decoder produces them for compressed
payloads: maps, arrays and scalars, with no plain JS objects and no `null`
(on those the source's array-element loop throws raw TypeErrors instead of
structured errors). -/
inductive GoodV : CborValue → Prop where
  | cmap {l} : (∀ p ∈ l, GoodV (Prod.snd p)) → GoodV (.cmap l)
  | carr {es} : (∀ e ∈ es, GoodV e) → GoodV (.carr es)
  | cint (n : Int) : GoodV (.cint n)
  | cstr (s : String) : GoodV (.cstr s)
  | cbool (b : Bool) : GoodV (.cbool b)
  | cbytes (bs : List Nat) : GoodV (.cbytes bs)

/-- On well-formed elements the array-element loop never fails: every element
falls into the codec (or raw pass-through) branch. -/
theorem generateDecodingMapElems_good_ok (acm : Option AppContextMap)
    (tcm? : Option TermCodecMap) (entry? : Option TermEntry) :
    ∀ es : List CborValue, (∀ e ∈ es, GoodV e) →
    ∃ ds, generateDecodingMapElems acm tcm? entry? es = .ok ds := by
  intro es
  induction es with
  | nil => intro _; exact ⟨[], by rw [generateDecodingMapElems]⟩
  | cons e rest ih =>
    intro hg
    obtain ⟨ds, hds⟩ := ih (fun x hx => hg x (List.mem_cons_of_mem _ hx))
    have he := hg e (List.mem_cons_self _ _)
    cases he <;> cases entry? <;> simp [generateDecodingMapElems, hds]

/-- If the entries loop succeeds under an active Term Codec Map, every key of
the processed entries had a Term Codec Map entry: no unknown key is ever
silently dropped or passed through. -/
theorem generateDecodingMapEntries_ok_keys (acm : Option AppContextMap) (tcm : TermCodecMap) :
    ∀ (l : List (CKey × CborValue)) (acc dm : DecodingMap),
    generateDecodingMapEntries acm (some tcm) l acc = .ok dm →
    ∀ p ∈ l, lookup tcm p.1 ≠ none := by
  intro l
  induction l with
  | nil => intro _ _ _ p hp; exact absurd hp (List.not_mem_nil p)
  | cons q rest ih =>
    intro acc dm hok p hp
    obtain ⟨key, value⟩ := q
    rw [generateDecodingMapEntries] at hok
    cases hl : lookup tcm key with
    | none => simp only [hl] at hok; exact absurd hok (by simp)
    | some entry =>
      simp only [hl] at hok
      cases hv : generateDecodingMapValue acm (some tcm) (some entry) value with
      | error e => simp only [hv] at hok; exact absurd hok (by simp)
      | ok dv =>
        simp only [hv] at hok
        rcases List.mem_cons.mp hp with hp | hp
        · rw [hp]; simp [hl]
        · exact ih _ _ hok p hp

/-- On well-formed input, every error the entries loop raises under an active
Term Codec Map is an unknown-term error: the loop's own throw site is
ERR_UNKNOWN_CBORLD_TERM, and nested maps can only fail the same way. -/
theorem generateDecodingMapEntries_error_unknown_term :
    ∀ (n : Nat) (l : List (CKey × CborValue)), sizeOf l ≤ n →
    ∀ (acm : Option AppContextMap) (tcm : TermCodecMap) (acc : DecodingMap) (e : CborldError),
    (∀ p ∈ l, GoodV (Prod.snd p)) →
    generateDecodingMapEntries acm (some tcm) l acc = .error e →
    ∃ k, e = .unknownTerm k := by
  intro n
  induction n using Nat.strong_induction_on with
  | _ n ih =>
    intro l hn acm tcm acc e hg herr
    match l with
    | [] => rw [generateDecodingMapEntries] at herr; exact absurd herr (by simp)
    | (key, value) :: rest =>
      rw [generateDecodingMapEntries] at herr
      cases hl : lookup tcm key with
      | none =>
        simp only [hl] at herr
        exact ⟨key, by injection herr with h; exact h.symm⟩
      | some entry =>
        simp only [hl] at herr
        cases hv : generateDecodingMapValue acm (some tcm) (some entry) value with
        | error e' =>
          simp only [hv] at herr
          injection herr with herr
          subst herr
          have hgv : GoodV value := hg (key, value) (List.mem_cons_self _ _)
          cases hgv with
          | cmap hml =>
            rename_i l2
            rw [generateDecodingMapValue] at hv
            cases hv2 : generateDecodingMapEntries acm (some tcm) l2 [] with
            | error e2 =>
              simp only [hv2] at hv
              injection hv with h2
              subst h2
              have hsz : sizeOf l2 < n := by
                simp only [List.cons.sizeOf_spec, Prod.mk.sizeOf_spec,
                  CborValue.cmap.sizeOf_spec] at hn
                omega
              exact ih (sizeOf l2) hsz l2 le_rfl acm tcm [] e2 hml hv2
            | ok dm2 => simp only [hv2] at hv; exact absurd hv (by simp)
          | carr hes =>
            rename_i es2
            obtain ⟨ds, hds⟩ := generateDecodingMapElems_good_ok acm (some tcm) (some entry) es2 hes
            rw [generateDecodingMapValue] at hv
            simp only [hds] at hv
            exact absurd hv (by simp)
          | cint m => simp [generateDecodingMapValue] at hv
          | cstr s => simp [generateDecodingMapValue] at hv
          | cbool b => simp [generateDecodingMapValue] at hv
          | cbytes bs => simp [generateDecodingMapValue] at hv
        | ok dv =>
          simp only [hv] at herr
          have hsz : sizeOf rest < n := by
            simp only [List.cons.sizeOf_spec] at hn
            omega
          exact ih (sizeOf rest) hsz rest le_rfl acm tcm _ e
            (fun p hp => hg p (List.mem_cons_of_mem _ hp)) herr

/-- Claim C4: under an active Term Codec Map, a binary map containing a key
with no Term Codec Map entry never decodes successfully, and (on well-formed
input, with the `@codec` seeding block not itself throwing) the Decoding Tree
Builder fails with ERR_UNKNOWN_CBORLD_TERM (decode.js lines 83-88). -/
theorem generateDecodingMap_unknown_term (atm : Option AppTermMap) (acm : Option AppContextMap)
    (tcm : TermCodecMap) (l : List (CKey × CborValue)) (k : CKey) (val : CborValue)
    (hg : GoodV (.cmap l)) (hseed : ∃ s, seedResult atm (some tcm) = .ok s)
    (hk : (k, val) ∈ l) (hmiss : lookup tcm k = none) :
    ∃ k', generateDecodingMap atm acm (some tcm) (.cmap l) = .error (.unknownTerm k') := by
  obtain ⟨s, hs⟩ := hseed
  have hgl : ∀ p ∈ l, GoodV (Prod.snd p) := by cases hg with | cmap h => exact h
  cases hres : generateDecodingMapEntries acm (some tcm) l s with
  | ok dm =>
    exact absurd hmiss (generateDecodingMapEntries_ok_keys acm tcm l s dm hres (k, val) hk)
  | error e =>
    obtain ⟨k', hk'⟩ := generateDecodingMapEntries_error_unknown_term (sizeOf l) l le_rfl
      acm tcm s e hgl hres
    subst hk'
    exact ⟨k', by rw [generateDecodingMap]; simp only [hs, hres]⟩

/-- A Term Codec Map knowing only term ID 1. -/
def tcmC : TermCodecMap := [(.kint 1, ⟨"name", .simpleType⟩)]

/-- Claim C4 witness: a binary map using the unknown term ID 9 fails with
ERR_UNKNOWN_CBORLD_TERM. -/
theorem generateDecodingMap_unknown_term_witness :
    GoodV (.cmap [(.kint 9, .cstr "Alice")]) ∧
      ∃ k', generateDecodingMap none none (some tcmC) (.cmap [(.kint 9, .cstr "Alice")]) =
        .error (.unknownTerm k') := by
  have hg : GoodV (CborValue.cmap [(.kint 9, .cstr "Alice")]) :=
    GoodV.cmap (by intro p hp; rw [List.mem_singleton] at hp; subst hp; exact GoodV.cstr _)
  exact ⟨hg, generateDecodingMap_unknown_term none none tcmC _ (.kint 9) (.cstr "Alice") hg
    ⟨[], rfl⟩ (List.mem_singleton.mpr rfl) (by decide)⟩

/-- The recursive `_generateDecodingMap` call for a nested map omits the
`appTermMap` argument (decode.js lines 96-98), so its `@codec` seeding block
is skipped and it is exactly the entries loop from an empty map. -/
theorem generateDecodingMap_none_cmap (acm : Option AppContextMap) (tcm? : Option TermCodecMap)
    (l : List (CKey × CborValue)) :
    generateDecodingMap none acm tcm? (.cmap l) = generateDecodingMapEntries acm tcm? l [] := by
  rw [generateDecodingMap]
  cases tcm? <;> rfl

/-- The recursive call on a plain JS object throws at `cborMap.entries()`. -/
theorem generateDecodingMap_cobj (acm : Option AppContextMap) (tcm? : Option TermCodecMap)
    (l : List (String × CborValue)) :
    generateDecodingMap none acm tcm? (.cobj l) =
      .error (.typeError "cborMap.entries is not a function") := by
  rw [generateDecodingMap]
  cases tcm? <;> rfl

/-- With an active codec entry, a successful array-element loop produces only
codec instances: nested decoding maps never appear inside built sequences. -/
theorem generateDecodingMapElems_ok_dcodec (acm : Option AppContextMap)
    (tcm? : Option TermCodecMap) (entry : TermEntry) :
    ∀ (es : List CborValue) (ds : List DValue),
    generateDecodingMapElems acm tcm? (some entry) es = .ok ds →
    ∀ d ∈ ds, ∃ ci, d = DValue.dcodec ci := by
  intro es
  induction es with
  | nil =>
    intro ds h d hd
    rw [generateDecodingMapElems] at h
    injection h with h
    subst h
    exact absurd hd (List.not_mem_nil d)
  | cons e rest ih =>
    intro ds h d hd
    cases e with
    | cobj l2 => simp [generateDecodingMapElems, generateDecodingMap_cobj] at h
    | cnull => simp [generateDecodingMapElems] at h
    | cmap l2 =>
      cases hr : generateDecodingMapElems acm tcm? (some entry) rest with
      | error err => simp [generateDecodingMapElems, hr] at h
      | ok ds' =>
        simp [generateDecodingMapElems, hr] at h
        subst h
        rcases List.mem_cons.mp hd with hd | hd
        · exact ⟨_, hd⟩
        · exact ih ds' hr d hd
    | carr es2 =>
      cases hr : generateDecodingMapElems acm tcm? (some entry) rest with
      | error err => simp [generateDecodingMapElems, hr] at h
      | ok ds' =>
        simp [generateDecodingMapElems, hr] at h
        subst h
        rcases List.mem_cons.mp hd with hd | hd
        · exact ⟨_, hd⟩
        · exact ih ds' hr d hd
    | cint n =>
      cases hr : generateDecodingMapElems acm tcm? (some entry) rest with
      | error err => simp [generateDecodingMapElems, hr] at h
      | ok ds' =>
        simp [generateDecodingMapElems, hr] at h
        subst h
        rcases List.mem_cons.mp hd with hd | hd
        · exact ⟨_, hd⟩
        · exact ih ds' hr d hd
    | cstr s =>
      cases hr : generateDecodingMapElems acm tcm? (some entry) rest with
      | error err => simp [generateDecodingMapElems, hr] at h
      | ok ds' =>
        simp [generateDecodingMapElems, hr] at h
        subst h
        rcases List.mem_cons.mp hd with hd | hd
        · exact ⟨_, hd⟩
        · exact ih ds' hr d hd
    | cbool b =>
      cases hr : generateDecodingMapElems acm tcm? (some entry) rest with
      | error err => simp [generateDecodingMapElems, hr] at h
      | ok ds' =>
        simp [generateDecodingMapElems, hr] at h
        subst h
        rcases List.mem_cons.mp hd with hd | hd
        · exact ⟨_, hd⟩
        · exact ih ds' hr d hd
    | cbytes bs =>
      cases hr : generateDecodingMapElems acm tcm? (some entry) rest with
      | error err => simp [generateDecodingMapElems, hr] at h
      | ok ds' =>
        simp [generateDecodingMapElems, hr] at h
        subst h
        rcases List.mem_cons.mp hd with hd | hd
        · exact ⟨_, hd⟩
        · exact ih ds' hr d hd

/-- Provenance of a loop-produced decoding value: a nested decoding map is
always the result of the appTermMap-less recursive builder call, and a built
sequence holds only codec instances. -/
def ValOrigin (acm : Option AppContextMap) (tcm : TermCodecMap) (dv : DValue) : Prop :=
  (∀ dm', dv = .dmap dm' →
    ∃ inner, generateDecodingMap none acm (some tcm) (.cmap inner) = .ok dm') ∧
  (∀ es, dv = .darr es → ∀ d ∈ es, ∃ ci, d = DValue.dcodec ci)

/-- Every value the per-value dispatch produces under an active Term Codec
Map satisfies `ValOrigin`. -/
theorem generateDecodingMapValue_origin (acm : Option AppContextMap) (tcm : TermCodecMap)
    (entry : TermEntry) (value : CborValue) (dv : DValue)
    (h : generateDecodingMapValue acm (some tcm) (some entry) value = .ok dv) :
    ValOrigin acm tcm dv := by
  cases value with
  | cmap l2 =>
    rw [generateDecodingMapValue] at h
    cases h2 : generateDecodingMapEntries acm (some tcm) l2 [] with
    | error e => simp [h2] at h
    | ok dm2 =>
      simp only [h2] at h
      injection h with h
      subst h
      refine ⟨fun dm' heq => ?_, fun es heq => by simp at heq⟩
      injection heq with heq
      subst heq
      exact ⟨l2, by rw [generateDecodingMap_none_cmap]; exact h2⟩
  | carr es2 =>
    rw [generateDecodingMapValue] at h
    cases h2 : generateDecodingMapElems acm (some tcm) (some entry) es2 with
    | error e => simp [h2] at h
    | ok ds =>
      simp only [h2] at h
      injection h with h
      subst h
      refine ⟨fun dm' heq => by simp at heq, fun es heq => ?_⟩
      injection heq with heq
      subst heq
      exact generateDecodingMapElems_ok_dcodec acm (some tcm) entry es2 ds h2
  | cobj l2 =>
    simp [generateDecodingMapValue] at h
    subst h
    exact ⟨fun dm' heq => by simp at heq, fun es heq => by simp at heq⟩
  | cnull =>
    simp [generateDecodingMapValue] at h
    subst h
    exact ⟨fun dm' heq => by simp at heq, fun es heq => by simp at heq⟩
  | cint n =>
    simp [generateDecodingMapValue] at h
    subst h
    exact ⟨fun dm' heq => by simp at heq, fun es heq => by simp at heq⟩
  | cstr s =>
    simp [generateDecodingMapValue] at h
    subst h
    exact ⟨fun dm' heq => by simp at heq, fun es heq => by simp at heq⟩
  | cbool b =>
    simp [generateDecodingMapValue] at h
    subst h
    exact ⟨fun dm' heq => by simp at heq, fun es heq => by simp at heq⟩
  | cbytes bs =>
    simp [generateDecodingMapValue] at h
    subst h
    exact ⟨fun dm' heq => by simp at heq, fun es heq => by simp at heq⟩

/-- The `@codec` seeding block only ever installs a codec instance: a seeded
accumulator never contains a nested decoding map. -/
theorem seedResult_ok_shape (atm : Option AppTermMap) (tcm : TermCodecMap) (s : DecodingMap)
    (h : seedResult atm (some tcm) = .ok s) :
    ∀ p ∈ s, ∃ ci, Prod.snd p = DValue.dcodec ci := by
  intro p hp
  cases atm with
  | none =>
    simp [seedResult] at h
    subst h
    exact absurd hp (List.not_mem_nil p)
  | some m =>
    rw [seedResult] at h
    by_cases hm : m = []
    · rw [if_pos hm] at h
      injection h with h
      subst h
      exact absurd hp (List.not_mem_nil p)
    · rw [if_neg hm] at h
      cases hlk : lookup tcm (.kstr "@codec") with
      | none => simp [hlk] at h
      | some e =>
        simp only [hlk] at h
        injection h with h
        subst h
        rw [List.mem_singleton] at hp
        subst hp
        exact ⟨_, rfl⟩

/-- Origin of every entry of a successful entries-loop result under an active
Term Codec Map: it either survived from the accumulator, or its key is the
resolved term of one of the processed binary keys and its value satisfies
`ValOrigin`. -/
theorem generateDecodingMapEntries_ok_origin (acm : Option AppContextMap) (tcm : TermCodecMap) :
    ∀ (l : List (CKey × CborValue)) (acc final : DecodingMap),
    generateDecodingMapEntries acm (some tcm) l acc = .ok final →
    ∀ p ∈ final, p ∈ acc ∨
      ((∃ k v e, (k, v) ∈ l ∧ lookup tcm k = some e ∧ Prod.fst p = CKey.kstr e.value) ∧
        ValOrigin acm tcm (Prod.snd p)) := by
  intro l
  induction l with
  | nil =>
    intro acc final h p hp
    rw [generateDecodingMapEntries] at h
    injection h with h
    subst h
    exact Or.inl hp
  | cons q rest ih =>
    intro acc final h p hp
    obtain ⟨key, value⟩ := q
    rw [generateDecodingMapEntries] at h
    cases hl : lookup tcm key with
    | none => simp only [hl] at h; exact absurd h (by simp)
    | some entry =>
      simp only [hl] at h
      cases hv : generateDecodingMapValue acm (some tcm) (some entry) value with
      | error e => simp only [hv] at h; exact absurd h (by simp)
      | ok dv =>
        simp only [hv] at h
        rcases ih _ _ h p hp with hin | ⟨⟨k1, v1, e1, hk1, hl1, hp1⟩, hvo⟩
        · rcases mapSet_mem acc (CKey.kstr entry.value) dv p hin with heq | hin
          · subst heq
            exact Or.inr ⟨⟨key, value, entry, List.mem_cons_self _ _, hl, rfl⟩,
              generateDecodingMapValue_origin acm tcm entry value dv hv⟩
          · exact Or.inl hin
        · exact Or.inr ⟨⟨k1, v1, e1, List.mem_cons_of_mem _ hk1, hl1, hp1⟩, hvo⟩

/-- Inversion of a successful top-level builder run: the input was a binary
map, the seeding block succeeded, and the entries loop ran from the seed. -/
theorem generateDecodingMap_ok_inversion (atm : Option AppTermMap) (acm : Option AppContextMap)
    (tcm : TermCodecMap) (v : CborValue) (dm : DecodingMap)
    (h : generateDecodingMap atm acm (some tcm) v = .ok dm) :
    ∃ l s, v = .cmap l ∧ seedResult atm (some tcm) = .ok s ∧
      generateDecodingMapEntries acm (some tcm) l s = .ok dm := by
  cases hs : seedResult atm (some tcm) with
  | error e =>
    rw [generateDecodingMap, hs] at h
    exact absurd h (by simp)
  | ok s =>
    cases v with
    | cmap l =>
      rw [generateDecodingMap, hs] at h
      exact ⟨l, s, rfl, rfl, h⟩
    | cobj l => rw [generateDecodingMap, hs] at h; simp at h
    | carr es => rw [generateDecodingMap, hs] at h; simp at h
    | cint n => rw [generateDecodingMap, hs] at h; simp at h
    | cstr str => rw [generateDecodingMap, hs] at h; simp at h
    | cbool b => rw [generateDecodingMap, hs] at h; simp at h
    | cbytes bs => rw [generateDecodingMap, hs] at h; simp at h
    | cnull => rw [generateDecodingMap, hs] at h; simp at h

/-- A decoding map nested (at any depth) inside the values of another:
directly as a nested-map entry, as an element of a sequence entry, or
transitively. -/
inductive NestedIn : DecodingMap → DecodingMap → Prop where
  | mapEntry {dm' dm : DecodingMap} (k : CKey) (hmem : (k, DValue.dmap dm') ∈ dm) :
      NestedIn dm' dm
  | arrEntry {dm' dm : DecodingMap} (k : CKey) (es : List DValue)
      (hmem : (k, DValue.darr es) ∈ dm) (helem : DValue.dmap dm' ∈ es) : NestedIn dm' dm
  | trans {a b c : DecodingMap} : NestedIn a b → NestedIn b c → NestedIn a c

/-- Claim C9: the synthesized `@codec` entry can only live in the top-level
Decoding Map.  Every decoding map nested at any depth in a successful builder
result is itself the result of the appTermMap-less recursive builder call
(decode.js lines 96-98 omit the argument), and each of its entries is keyed
by the resolved term of a key of the nested binary map it was built from —
none is the synthesized entry of the seeding block (decode.js lines 76-80). -/
theorem generateDecodingMap_nested_no_synthesized_entry (acm : Option AppContextMap)
    (tcm : TermCodecMap) :
    ∀ (dm' dm : DecodingMap), NestedIn dm' dm →
    ∀ (atm : Option AppTermMap) (v : CborValue),
    generateDecodingMap atm acm (some tcm) v = .ok dm →
    ∃ inner, generateDecodingMap none acm (some tcm) (.cmap inner) = .ok dm' ∧
      ∀ p ∈ dm', ∃ k kv e, (k, kv) ∈ inner ∧ lookup tcm k = some e ∧
        Prod.fst p = CKey.kstr e.value := by
  intro dm' dm hn
  induction hn with
  | mapEntry k hmem =>
    rename_i dm' dm
    intro atm v h
    obtain ⟨l, s, hv, hs, hent⟩ := generateDecodingMap_ok_inversion atm acm tcm v dm h
    rcases generateDecodingMapEntries_ok_origin acm tcm l s dm hent _ hmem with hin | ⟨_, hvo⟩
    · obtain ⟨ci, hci⟩ := seedResult_ok_shape atm tcm s hs _ hin
      simp at hci
    · obtain ⟨inner, hinner⟩ := hvo.1 _ rfl
      refine ⟨inner, hinner, ?_⟩
      rw [generateDecodingMap_none_cmap] at hinner
      intro p hp
      rcases generateDecodingMapEntries_ok_origin acm tcm inner [] _ hinner p hp with
        h0 | ⟨⟨k1, v1, e1, hk1, hl1, hp1⟩, _⟩
      · exact absurd h0 (List.not_mem_nil p)
      · exact ⟨k1, v1, e1, hk1, hl1, hp1⟩
  | arrEntry k es hmem helem =>
    rename_i dm' dm
    intro atm v h
    obtain ⟨l, s, hv, hs, hent⟩ := generateDecodingMap_ok_inversion atm acm tcm v dm h
    rcases generateDecodingMapEntries_ok_origin acm tcm l s dm hent _ hmem with hin | ⟨_, hvo⟩
    · obtain ⟨ci, hci⟩ := seedResult_ok_shape atm tcm s hs _ hin
      simp at hci
    · obtain ⟨ci, hci⟩ := hvo.2 _ rfl _ helem
      simp at hci
  | trans h1 h2 ih1 ih2 =>
    intro atm v h
    obtain ⟨inner1, hinner1, _⟩ := ih2 atm v h
    exact ih1 none (.cmap inner1) hinner1

/-- A Term Codec Map for the nested-map witness. -/
def tcmD : TermCodecMap := [(.kint 1, ⟨"a", .simpleType⟩), (.kint 2, ⟨"b", .simpleType⟩)]

/-- The nested decoding map produced for the inner binary map of the
witness input. -/
def dmD : DecodingMap := [(.kstr "b", .dcodec ⟨.simpleType, .ofCbor (.cstr "x"), none, some tcmD⟩)]

/-- The witness input: a binary map whose term 1 holds a nested binary map. -/
def vD : CborValue := .cmap [(.kint 1, .cmap [(.kint 2, .cstr "x")])]

/-- Claim C9 witness: the nested decoding map built for the inner map of
`vD` is an appTermMap-less builder result whose single entry is keyed by the
resolved term of inner key 2 — no synthesized `@codec` entry. -/
theorem generateDecodingMap_nested_no_synthesized_entry_witness :
    ∃ inner, generateDecodingMap none none (some tcmD) (.cmap inner) = .ok dmD ∧
      ∀ p ∈ dmD, ∃ k kv e, (k, kv) ∈ inner ∧ lookup tcmD k = some e ∧
        Prod.fst p = CKey.kstr e.value := by
  have h : generateDecodingMap none none (some tcmD) vD = .ok [(.kstr "a", .dmap dmD)] := by
    simp [vD, dmD, tcmD, generateDecodingMap, generateDecodingMapEntries,
      generateDecodingMapValue, seedResult, lookup, mapSet]
  exact generateDecodingMap_nested_no_synthesized_entry none tcmD dmD [(.kstr "a", .dmap dmD)]
    (NestedIn.mapEntry (.kstr "a") (List.mem_singleton.mpr rfl)) none vD h
